import Mathlib

/-!
Shallow embedding of the NXT-Logger kinematic pipeline.

`analyzer.py` loads a CSV of `(t, distance)` samples and derives, in order:
a `dt` column (`df["t"].diff()`), a row filter (`df[df["dt"] > 1e-4]` with
`reset_index`), raw derivatives (`distance.diff()/dt`, then
`velocity_raw.diff()/dt`), a centered rolling mean of `distance`
(`rolling(window, center=True, min_periods=1).mean()`), filtered derivatives
from that smoothed signal, and finally `df.replace([inf, -inf], nan)` over the
whole frame.  `distance_log.py` smooths with a trailing rolling mean
(`rolling(window).mean().fillna(method="bfill")`) instead.

Cell values are modelled exactly: a float cell is either a rational number,
NaN, or a signed infinity, with IEEE-style propagation through the arithmetic
the pipeline performs.  Reals are idealised as rationals (no rounding error);
NaN is the missing-value marker produced by `diff()` at the start of a column
and by pandas' skip-NaN aggregations on empty windows.
-/

/-- A pandas float cell: a finite rational, NaN (the missing marker), or a
signed infinity. -/
inductive Val where
  | nan : Val
  | pinf : Val
  | ninf : Val
  | num : ℚ → Val
deriving DecidableEq, Repr

namespace Val

/-- True exactly on finite cells. -/
def isNum : Val → Bool
  | num _ => true
  | _ => false

/-- IEEE negation of a cell. -/
def neg : Val → Val
  | nan => nan
  | pinf => ninf
  | ninf => pinf
  | num q => num (-q)

/-- IEEE addition: NaN propagates, opposite infinities give NaN. -/
def add : Val → Val → Val
  | nan, _ => nan
  | _, nan => nan
  | pinf, ninf => nan
  | ninf, pinf => nan
  | pinf, _ => pinf
  | _, pinf => pinf
  | ninf, _ => ninf
  | _, ninf => ninf
  | num a, num b => num (a + b)

/-- IEEE subtraction, defined from addition and negation. -/
def sub (a b : Val) : Val := add a (neg b)

/-- IEEE division as numpy performs it on float columns: NaN propagates,
division of a nonzero finite by zero gives a signed infinity, `0/0` gives
NaN, a finite over an infinity gives `0`, infinity over infinity gives NaN. -/
def div : Val → Val → Val
  | nan, _ => nan
  | _, nan => nan
  | pinf, pinf => nan
  | pinf, ninf => nan
  | ninf, pinf => nan
  | ninf, ninf => nan
  | pinf, num b => if b < 0 then ninf else pinf
  | ninf, num b => if b < 0 then pinf else ninf
  | num _, pinf => num 0
  | num _, ninf => num 0
  | num a, num b =>
    if b = 0 then (if a = 0 then nan else if 0 < a then pinf else ninf)
    else num (a / b)

/-- IEEE strict comparison: any comparison against NaN is false. -/
def lt : Val → Val → Bool
  | nan, _ => false
  | _, nan => false
  | ninf, ninf => false
  | ninf, _ => true
  | _, ninf => false
  | pinf, pinf => false
  | _, pinf => true
  | pinf, _ => false
  | num a, num b => decide (a < b)

/-- IEEE non-strict comparison: any comparison against NaN is false. -/
def le : Val → Val → Bool
  | nan, _ => false
  | _, nan => false
  | ninf, _ => true
  | _, ninf => false
  | _, pinf => true
  | pinf, _ => false
  | num a, num b => decide (a ≤ b)

end Val

/-- The `replace([np.inf, -np.inf], np.nan)` action on one cell. -/
def replaceInfV : Val → Val
  | Val.pinf => Val.nan
  | Val.ninf => Val.nan
  | v => v

/-- The `replace([np.inf, -np.inf], np.nan)` action on one column. -/
def replaceInf (xs : List Val) : List Val := xs.map replaceInfV

/-- Elementwise `Series.diff()`: NaN at index 0, otherwise the difference
with the previous cell. -/
def diff (xs : List Val) : List Val :=
  (List.range xs.length).map fun i =>
    if i = 0 then Val.nan else Val.sub (xs.getD i Val.nan) (xs.getD (i - 1) Val.nan)

/-- The non-NaN observations of a column, as pandas skip-NaN aggregations
see them. -/
def nonNan (xs : List Val) : List Val := xs.filter fun v => v ≠ Val.nan

/-- Sum of a column's cells with IEEE propagation. -/
def vsum (xs : List Val) : Val := xs.foldr Val.add (Val.num 0)

/-- The skip-NaN mean pandas computes for `Series.mean()` and for each
rolling window: NaN when there is no non-NaN observation, otherwise the sum
of the observations over their count. -/
def vmean (xs : List Val) : Val :=
  let obs := nonNan xs
  if obs.length = 0 then Val.nan
  else Val.div (vsum obs) (Val.num (obs.length : ℚ))

/-- The indices a centered rolling window of size `W` sees at position `i`
in a column of length `n`: pandas uses the span
`[i + 1 + (W-1)/2 - W, i + (W-1)/2]` clipped to the column (natural-number
subtraction performs the lower clip). -/
def centerIdx (n W i : ℕ) : List ℕ :=
  (List.range n).filter fun j =>
    decide (i + 1 + (W - 1) / 2 - W ≤ j) && decide (j ≤ i + (W - 1) / 2)

/-- The cells a centered rolling window of size `W` sees at position `i`. -/
def windowVals (xs : List Val) (W i : ℕ) : List Val :=
  (centerIdx xs.length W i).map fun j => xs.getD j Val.nan

/-- Embeds `moving_average` of `analyzer.py`:
`signal.rolling(window=window, center=True, min_periods=1).mean()`. -/
def moving_average (signal : List Val) (window : ℕ) : List Val :=
  (List.range signal.length).map fun i => vmean (windowVals signal window i)

/-- The cells a trailing rolling window of size `W` sees at position `i`:
index span `[i + 1 - W, i]` clipped to the column. -/
def trailWindowVals (xs : List Val) (W i : ℕ) : List Val :=
  (((List.range xs.length).filter fun j =>
      decide (i + 1 - W ≤ j) && decide (j ≤ i)).map
    fun j => xs.getD j Val.nan)

/-- Embeds the trailing rolling mean of `distance_log.py`:
`rolling(window=window).mean()`, whose `min_periods` defaults to the window
size, so a window with fewer than `window` non-NaN observations yields NaN. -/
def trailing_mean (xs : List Val) (window : ℕ) : List Val :=
  (List.range xs.length).map fun i =>
    let w := trailWindowVals xs window i
    if window ≤ (nonNan w).length then vmean w else Val.nan

/-- Embeds `fillna(method="bfill")`: each NaN takes the next filled value
below it, trailing NaNs stay NaN. -/
def bfill : List Val → List Val
  | [] => []
  | v :: rest =>
    let r := bfill rest
    (if v = Val.nan then r.headD Val.nan else v) :: r

/-- Python's round-half-to-even on a rational, to integer precision. -/
def roundHalfEven (x : ℚ) : ℤ :=
  let f := ⌊x⌋
  let r := x - (f : ℚ)
  if r < 1 / 2 then f
  else if 1 / 2 < r then f + 1
  else if f % 2 = 0 then f else f + 1

/-- Python's `round(x, 1)` on a rational. -/
def pyRound1 (x : ℚ) : ℚ := (roundHalfEven (10 * x) : ℚ) / 10

/-- Rounding of a cell; infinities and NaN round to themselves. -/
def vround1 : Val → Val
  | Val.num q => Val.num (pyRound1 q)
  | v => v

/-- Embeds `safe_sample_rate` of `analyzer.py`: the skip-NaN mean of the
`dt` column, then `round(1 / avg_dt, 1) if pd.notna(avg_dt) and avg_dt > 0
else float("nan")`; the guard is exactly the IEEE test `0 < avg_dt`. -/
def safe_sample_rate (dts : List Val) : Val :=
  let avg := vmean dts
  if Val.lt (Val.num 0) avg then vround1 (Val.div (Val.num 1) avg) else Val.nan

/-- One parsed input row of the CSV after column normalisation: a timestamp
cell and a distance cell. -/
structure RawRow where
  t : Val
  distance : Val
deriving DecidableEq, Repr

/-- The epsilon of the time-delta filter, `1e-4`. -/
def eps : ℚ := 1 / 10000

/-- The `dt` column computed on the full input: `df["t"].diff()`. -/
def dtCol (rows : List RawRow) : List Val := diff (rows.map RawRow.t)

/-- The Time-Delta step: each row paired with its dt, keeping exactly the
rows passing `df["dt"] > 1e-4` (`reset_index` is implicit in the list). -/
def timeDelta (rows : List RawRow) : List (RawRow × Val) :=
  (rows.zip (dtCol rows)).filter fun p => Val.lt (Val.num eps) p.2

/-- The processed frame: the columns `analyze` writes to the output CSV. -/
structure Frame where
  t : List Val
  distance : List Val
  dt : List Val
  velocity_raw : List Val
  acceleration_raw : List Val
  distance_f : List Val
  velocity_f : List Val
  acceleration_f : List Val
deriving DecidableEq, Repr

/-- The frame as it stands after the filtered-derivative step of `analyze`,
just before the infinity replacement. -/
def analyzePre (rows : List RawRow) (window : ℕ) : Frame :=
  let kept := timeDelta rows
  let t := kept.map fun p => p.1.t
  let distance := kept.map fun p => p.1.distance
  let dt := kept.map fun p => p.2
  let velocity_raw := List.zipWith Val.div (diff distance) dt
  let acceleration_raw := List.zipWith Val.div (diff velocity_raw) dt
  let distance_f := moving_average distance window
  let velocity_f := List.zipWith Val.div (diff distance_f) dt
  let acceleration_f := List.zipWith Val.div (diff velocity_f) dt
  { t := t, distance := distance, dt := dt,
    velocity_raw := velocity_raw, acceleration_raw := acceleration_raw,
    distance_f := distance_f, velocity_f := velocity_f,
    acceleration_f := acceleration_f }

/-- The Sanitizer step, `df.replace([np.inf, -np.inf], np.nan)`: it acts on
every column of the frame. -/
def sanitize (F : Frame) : Frame :=
  { t := replaceInf F.t, distance := replaceInf F.distance,
    dt := replaceInf F.dt,
    velocity_raw := replaceInf F.velocity_raw,
    acceleration_raw := replaceInf F.acceleration_raw,
    distance_f := replaceInf F.distance_f,
    velocity_f := replaceInf F.velocity_f,
    acceleration_f := replaceInf F.acceleration_f }

/-- Embeds the numeric pipeline of `analyze` in `analyzer.py`, from the
normalised `(t, distance)` rows to the processed frame it exports. -/
def analyze (rows : List RawRow) (window : ℕ) : Frame :=
  sanitize (analyzePre rows window)

/-- True when every input cell is a finite number, the input universe of the
specification's data model (a Sample is a pair of reals). -/
def allFinite (rows : List RawRow) : Bool :=
  rows.all fun r => r.t.isNum && r.distance.isNum

/-! ### Basic facts about cells and columns -/

/-- A cell is tame when it is finite or NaN, i.e. not an infinity. -/
def numOrNan (v : Val) : Prop := v = Val.nan ∨ ∃ q : ℚ, v = Val.num q

lemma replaceInfV_eq_self {v : Val} (h : numOrNan v) : replaceInfV v = v := by
  rcases h with h | ⟨q, h⟩ <;> subst h <;> rfl

lemma replaceInf_eq_self {l : List Val} (h : ∀ v ∈ l, numOrNan v) :
    replaceInf l = l := by
  unfold replaceInf
  calc l.map replaceInfV = l.map id := List.map_congr_left fun a ha =>
        replaceInfV_eq_self (h a ha)
    _ = l := List.map_id l

lemma replaceInfV_ne_inf (v : Val) :
    replaceInfV v ≠ Val.pinf ∧ replaceInfV v ≠ Val.ninf := by
  cases v <;> simp [replaceInfV]

lemma numOrNan_sub {a b : Val} (ha : numOrNan a) (hb : numOrNan b) :
    numOrNan (Val.sub a b) := by
  rcases ha with ha | ⟨p, ha⟩ <;> rcases hb with hb | ⟨q, hb⟩ <;> subst ha <;>
    subst hb <;> first
      | exact Or.inl rfl
      | exact Or.inr ⟨_, rfl⟩

lemma numOrNan_div {a b : Val} (ha : numOrNan a) {q : ℚ} (hb : b = Val.num q)
    (hq : q ≠ 0) : numOrNan (Val.div a b) := by
  subst hb
  rcases ha with ha | ⟨p, ha⟩ <;> subst ha
  · exact Or.inl rfl
  · exact Or.inr ⟨p / q, by simp [Val.div, hq]⟩

lemma vsum_num {l : List Val} (h : ∀ v ∈ l, v.isNum = true) :
    ∃ s : ℚ, vsum l = Val.num s := by
  induction l with
  | nil => exact ⟨0, rfl⟩
  | cons a l ih =>
    obtain ⟨s, hs⟩ := ih fun v hv => h v (List.mem_cons_of_mem a hv)
    have ha := h a (List.mem_cons_self a l)
    cases a with
    | num q => exact ⟨q + s, by simp [vsum] at hs ⊢; simp [hs, Val.add]⟩
    | nan => simp [Val.isNum] at ha
    | pinf => simp [Val.isNum] at ha
    | ninf => simp [Val.isNum] at ha

lemma nonNan_all_num {l : List Val} (h : ∀ v ∈ l, v.isNum = true) :
    nonNan l = l := by
  unfold nonNan
  rw [List.filter_eq_self]
  intro v hv
  have := h v hv
  cases v <;> simp_all [Val.isNum]

lemma vmean_numOrNan {l : List Val} (h : ∀ v ∈ l, numOrNan v) :
    numOrNan (vmean l) := by
  unfold vmean
  by_cases h0 : (nonNan l).length = 0
  · simp [h0]; exact Or.inl rfl
  · simp only [h0, if_false]
    have hnum : ∀ v ∈ nonNan l, v.isNum = true := by
      intro v hv
      rw [nonNan, List.mem_filter] at hv
      rcases h v hv.1 with h1 | ⟨q, h1⟩
      · subst h1; simp at hv
      · subst h1; rfl
    obtain ⟨s, hs⟩ := vsum_num hnum
    have hq : ((nonNan l).length : ℚ) ≠ 0 := by
      exact_mod_cast h0
    exact numOrNan_div (Or.inr ⟨s, hs⟩) rfl hq

lemma length_diff (xs : List Val) : (diff xs).length = xs.length := by
  simp [diff]

lemma length_replaceInf (xs : List Val) : (replaceInf xs).length = xs.length := by
  simp [replaceInf]

lemma length_moving_average (xs : List Val) (W : ℕ) :
    (moving_average xs W).length = xs.length := by
  simp [moving_average]

lemma getD_replaceInf (l : List Val) (i : ℕ) :
    (replaceInf l).getD i Val.nan = replaceInfV (l.getD i Val.nan) := by
  by_cases h : i < l.length
  · rw [List.getD_eq_getElem _ _ (by simpa [length_replaceInf] using h),
      List.getD_eq_getElem _ _ h]
    simp [replaceInf]
  · rw [List.getD_eq_default _ _ (by simpa [length_replaceInf] using Nat.le_of_not_lt h),
      List.getD_eq_default _ _ (Nat.le_of_not_lt h)]
    rfl

lemma getElem_diff (xs : List Val) (i : ℕ) (h : i < (diff xs).length) :
    (diff xs)[i] =
      if i = 0 then Val.nan
      else Val.sub (xs.getD i Val.nan) (xs.getD (i - 1) Val.nan) := by
  unfold diff
  simp

lemma mem_centerIdx_lt {n W i j : ℕ} (h : j ∈ centerIdx n W i) : j < n := by
  rw [centerIdx, List.mem_filter, List.mem_range] at h
  exact h.1

lemma self_mem_centerIdx {n W i : ℕ} (hW : 1 ≤ W) (hi : i < n) :
    i ∈ centerIdx n W i := by
  rw [centerIdx, List.mem_filter, List.mem_range]
  refine ⟨hi, ?_⟩
  simp only [Bool.and_eq_true, decide_eq_true_eq]
  omega

/-! ### Small computation rules for cell arithmetic -/

lemma Val.div_nan_left (x : Val) : Val.div Val.nan x = Val.nan := by
  cases x <;> rfl

lemma Val.sub_nan_right (x : Val) : Val.sub x Val.nan = Val.nan := by
  cases x <;> rfl

lemma Val.lt_num_num (a b : ℚ) : Val.lt (Val.num a) (Val.num b) = decide (a < b) := rfl

/-! ### The frame columns, unfolded -/

lemma analyzePre_t (rows : List RawRow) (W : ℕ) :
    (analyzePre rows W).t = (timeDelta rows).map fun p => p.1.t := rfl

lemma analyzePre_distance (rows : List RawRow) (W : ℕ) :
    (analyzePre rows W).distance = (timeDelta rows).map fun p => p.1.distance := rfl

lemma analyzePre_dt (rows : List RawRow) (W : ℕ) :
    (analyzePre rows W).dt = (timeDelta rows).map fun p => p.2 := rfl

lemma analyzePre_velocity_raw (rows : List RawRow) (W : ℕ) :
    (analyzePre rows W).velocity_raw =
      List.zipWith Val.div (diff ((analyzePre rows W).distance))
        ((analyzePre rows W).dt) := rfl

lemma analyzePre_acceleration_raw (rows : List RawRow) (W : ℕ) :
    (analyzePre rows W).acceleration_raw =
      List.zipWith Val.div (diff ((analyzePre rows W).velocity_raw))
        ((analyzePre rows W).dt) := rfl

lemma analyzePre_distance_f (rows : List RawRow) (W : ℕ) :
    (analyzePre rows W).distance_f =
      moving_average ((analyzePre rows W).distance) W := rfl

lemma analyzePre_velocity_f (rows : List RawRow) (W : ℕ) :
    (analyzePre rows W).velocity_f =
      List.zipWith Val.div (diff ((analyzePre rows W).distance_f))
        ((analyzePre rows W).dt) := rfl

lemma analyzePre_acceleration_f (rows : List RawRow) (W : ℕ) :
    (analyzePre rows W).acceleration_f =
      List.zipWith Val.div (diff ((analyzePre rows W).velocity_f))
        ((analyzePre rows W).dt) := rfl

/-! ### Finite inputs keep every column free of infinities -/

lemma allFinite_row {rows : List RawRow} (h : allFinite rows = true) {r : RawRow}
    (hr : r ∈ rows) : (∃ q, r.t = Val.num q) ∧ ∃ q, r.distance = Val.num q := by
  rw [allFinite, List.all_eq_true] at h
  have := h r hr
  simp only [Bool.and_eq_true] at this
  constructor
  · cases ht : r.t <;> simp [ht, Val.isNum] at this ⊢
  · cases hd : r.distance <;> simp [hd, Val.isNum] at this ⊢

lemma dtCol_numOrNan {rows : List RawRow} (h : allFinite rows = true) :
    ∀ v ∈ dtCol rows, numOrNan v := by
  intro v hv
  rw [dtCol, diff, List.mem_map] at hv
  obtain ⟨j, hj, rfl⟩ := hv
  rw [List.mem_range, List.length_map] at hj
  by_cases h0 : j = 0
  · simp [h0, numOrNan]
  · simp only [h0, if_false]
    have hjlen : j < (rows.map RawRow.t).length := by simpa using hj
    have hjlen' : j - 1 < (rows.map RawRow.t).length := by
      simp only [List.length_map]; omega
    apply numOrNan_sub
    · rw [List.getD_eq_getElem _ _ hjlen, List.getElem_map]
      exact Or.inr (allFinite_row h (List.getElem_mem _)).1
    · rw [List.getD_eq_getElem _ _ hjlen', List.getElem_map]
      exact Or.inr (allFinite_row h (List.getElem_mem _)).1

lemma mem_timeDelta {rows : List RawRow} {p : RawRow × Val} :
    p ∈ timeDelta rows ↔
      p ∈ rows.zip (dtCol rows) ∧ Val.lt (Val.num eps) p.2 = true := by
  rw [timeDelta, List.mem_filter]

lemma timeDelta_dt_pos {rows : List RawRow} (h : allFinite rows = true)
    {p : RawRow × Val} (hp : p ∈ timeDelta rows) :
    ∃ q, p.2 = Val.num q ∧ eps < q := by
  obtain ⟨hmem, hlt⟩ := mem_timeDelta.1 hp
  have h2 : p.2 ∈ dtCol rows := by
    obtain ⟨a, b⟩ := p
    exact (List.of_mem_zip hmem).2
  rcases dtCol_numOrNan h p.2 h2 with h3 | ⟨q, h3⟩
  · rw [h3] at hlt; simp [Val.lt] at hlt
  · refine ⟨q, h3, ?_⟩
    rw [h3, Val.lt_num_num, decide_eq_true_eq] at hlt
    exact hlt

lemma timeDelta_row_finite {rows : List RawRow} (h : allFinite rows = true)
    {p : RawRow × Val} (hp : p ∈ timeDelta rows) :
    (∃ q, p.1.t = Val.num q) ∧ ∃ q, p.1.distance = Val.num q := by
  obtain ⟨hmem, _⟩ := mem_timeDelta.1 hp
  have h1 : p.1 ∈ rows := by
    obtain ⟨a, b⟩ := p
    exact (List.of_mem_zip hmem).1
  exact allFinite_row h h1

lemma derivCol_numOrNan {X dt : List Val} (hX : ∀ v ∈ X, numOrNan v)
    (hdt : ∀ v ∈ dt, ∃ q, v = Val.num q ∧ q ≠ 0) :
    ∀ v ∈ List.zipWith Val.div (diff X) dt, numOrNan v := by
  intro v hv
  obtain ⟨i, hi, rfl⟩ := List.mem_iff_getElem.1 hv
  have hiX : i < (diff X).length := by
    rw [List.length_zipWith] at hi; omega
  have hidt : i < dt.length := by
    rw [List.length_zipWith] at hi; omega
  rw [List.getElem_zipWith]
  obtain ⟨q, hq, hq0⟩ := hdt dt[i] (List.getElem_mem hidt)
  rw [getElem_diff X i hiX]
  by_cases h0 : i = 0
  · simp only [h0, if_true, Val.div_nan_left]
    exact Or.inl rfl
  · simp only [h0, if_false]
    have hXi : i < X.length := by rwa [length_diff] at hiX
    have hXi' : i - 1 < X.length := by omega
    refine numOrNan_div (numOrNan_sub ?_ ?_) hq hq0
    · rw [List.getD_eq_getElem _ _ hXi]
      exact hX _ (List.getElem_mem _)
    · rw [List.getD_eq_getElem _ _ hXi']
      exact hX _ (List.getElem_mem _)

lemma moving_average_numOrNan {X : List Val} (hX : ∀ v ∈ X, numOrNan v) (W : ℕ) :
    ∀ v ∈ moving_average X W, numOrNan v := by
  intro v hv
  rw [moving_average, List.mem_map] at hv
  obtain ⟨i, _, rfl⟩ := hv
  apply vmean_numOrNan
  intro u hu
  rw [windowVals, List.mem_map] at hu
  obtain ⟨j, hj, rfl⟩ := hu
  have hjn := mem_centerIdx_lt hj
  rw [List.getD_eq_getElem _ _ hjn]
  exact hX _ (List.getElem_mem _)

lemma dt_col_pos {rows : List RawRow} {W : ℕ} (h : allFinite rows = true) :
    ∀ v ∈ (analyzePre rows W).dt, ∃ q, v = Val.num q ∧ eps < q := by
  intro v hv
  rw [analyzePre_dt, List.mem_map] at hv
  obtain ⟨p, hp, rfl⟩ := hv
  exact timeDelta_dt_pos h hp

lemma dt_col_num_ne {rows : List RawRow} {W : ℕ} (h : allFinite rows = true) :
    ∀ v ∈ (analyzePre rows W).dt, ∃ q, v = Val.num q ∧ q ≠ 0 := by
  intro v hv
  obtain ⟨q, hq, hq'⟩ := dt_col_pos h v hv
  refine ⟨q, hq, ?_⟩
  have : (0 : ℚ) < eps := by norm_num [eps]
  exact ne_of_gt (lt_trans this hq')

lemma t_col_tame {rows : List RawRow} {W : ℕ} (h : allFinite rows = true) :
    ∀ v ∈ (analyzePre rows W).t, numOrNan v := by
  intro v hv
  rw [analyzePre_t, List.mem_map] at hv
  obtain ⟨p, hp, rfl⟩ := hv
  exact Or.inr (timeDelta_row_finite h hp).1

lemma distance_col_tame {rows : List RawRow} {W : ℕ} (h : allFinite rows = true) :
    ∀ v ∈ (analyzePre rows W).distance, numOrNan v := by
  intro v hv
  rw [analyzePre_distance, List.mem_map] at hv
  obtain ⟨p, hp, rfl⟩ := hv
  exact Or.inr (timeDelta_row_finite h hp).2

lemma dt_col_tame {rows : List RawRow} {W : ℕ} (h : allFinite rows = true) :
    ∀ v ∈ (analyzePre rows W).dt, numOrNan v := by
  intro v hv
  obtain ⟨q, hq, _⟩ := dt_col_pos h v hv
  exact Or.inr ⟨q, hq⟩

lemma velocity_raw_tame {rows : List RawRow} {W : ℕ} (h : allFinite rows = true) :
    ∀ v ∈ (analyzePre rows W).velocity_raw, numOrNan v := by
  rw [analyzePre_velocity_raw]
  exact derivCol_numOrNan (distance_col_tame h) (dt_col_num_ne h)

lemma acceleration_raw_tame {rows : List RawRow} {W : ℕ}
    (h : allFinite rows = true) :
    ∀ v ∈ (analyzePre rows W).acceleration_raw, numOrNan v := by
  rw [analyzePre_acceleration_raw]
  exact derivCol_numOrNan (velocity_raw_tame h) (dt_col_num_ne h)

lemma distance_f_tame {rows : List RawRow} {W : ℕ} (h : allFinite rows = true) :
    ∀ v ∈ (analyzePre rows W).distance_f, numOrNan v := by
  rw [analyzePre_distance_f]
  exact moving_average_numOrNan (distance_col_tame h) W

lemma velocity_f_tame {rows : List RawRow} {W : ℕ} (h : allFinite rows = true) :
    ∀ v ∈ (analyzePre rows W).velocity_f, numOrNan v := by
  rw [analyzePre_velocity_f]
  exact derivCol_numOrNan (distance_f_tame h) (dt_col_num_ne h)

lemma acceleration_f_tame {rows : List RawRow} {W : ℕ}
    (h : allFinite rows = true) :
    ∀ v ∈ (analyzePre rows W).acceleration_f, numOrNan v := by
  rw [analyzePre_acceleration_f]
  exact derivCol_numOrNan (velocity_f_tame h) (dt_col_num_ne h)

/-- On a finite-valued input (the specification's data model) the Sanitizer
finds nothing to replace: the exported frame is the pre-sanitize frame. -/
lemma analyze_eq_analyzePre {rows : List RawRow} {W : ℕ}
    (h : allFinite rows = true) : analyze rows W = analyzePre rows W := by
  unfold analyze sanitize
  rw [replaceInf_eq_self (t_col_tame h), replaceInf_eq_self (distance_col_tame h),
    replaceInf_eq_self (dt_col_tame h), replaceInf_eq_self (velocity_raw_tame h),
    replaceInf_eq_self (acceleration_raw_tame h),
    replaceInf_eq_self (distance_f_tame h),
    replaceInf_eq_self (velocity_f_tame h),
    replaceInf_eq_self (acceleration_f_tame h)]

/-! ### Evaluating the centered rolling mean on finite data -/

lemma range_filter_eq_singleton {n i : ℕ} (hi : i < n) :
    ((List.range n).filter fun j => decide (i ≤ j) && decide (j ≤ i)) = [i] := by
  induction n with
  | zero => omega
  | succ m ih =>
    rw [List.range_succ, List.filter_append]
    by_cases h : i < m
    · rw [ih h]
      have hm : ((decide (i ≤ m) && decide (m ≤ i)) = false) := by
        simp only [Bool.and_eq_false_iff, decide_eq_false_iff_not]
        omega
      simp [List.filter, hm]
    · have him : i = m := by omega
      subst him
      have h1 : ((List.range i).filter fun j => decide (i ≤ j) && decide (j ≤ i)) = [] := by
        rw [List.filter_eq_nil_iff]
        intro j hj
        rw [List.mem_range] at hj
        simp only [Bool.and_eq_true, decide_eq_true_eq, not_and]
        omega
      rw [h1]
      simp [List.filter]

lemma centerIdx_one {n i : ℕ} (hi : i < n) : centerIdx n 1 i = [i] := by
  unfold centerIdx
  have e1 : i + 1 + (1 - 1) / 2 - 1 = i := by omega
  have e2 : i + (1 - 1) / 2 = i := by omega
  simp only [e1, e2]
  exact range_filter_eq_singleton hi

lemma vmean_single (v : Val) : vmean [v] = v := by
  cases v with
  | nan => rfl
  | pinf => rfl
  | ninf => rfl
  | num q =>
    show vmean [Val.num q] = Val.num q
    simp [vmean, nonNan, vsum, Val.add, Val.div, List.filter]

lemma vsum_map_num (l : List ℕ) (g : ℕ → ℚ) :
    vsum (l.map fun a => Val.num (g a)) = Val.num ((l.map g).sum) := by
  induction l with
  | nil => rfl
  | cons a l ih =>
    simp only [List.map_cons, List.sum_cons, vsum, List.foldr_cons]
    rw [vsum] at ih
    rw [ih, Val.add]

lemma nonNan_map_num (l : List ℕ) (g : ℕ → ℚ) :
    nonNan (l.map fun a => Val.num (g a)) = l.map fun a => Val.num (g a) := by
  apply nonNan_all_num
  intro v hv
  rw [List.mem_map] at hv
  obtain ⟨a, _, rfl⟩ := hv
  rfl

lemma moving_average_finite_getD (qs : List ℚ) (W i : ℕ) (hi : i < qs.length)
    (hW : 1 ≤ W) :
    (moving_average (qs.map Val.num) W).getD i Val.nan
    = Val.num (((centerIdx qs.length W i).map fun j => qs.getD j 0).sum
        / ((centerIdx qs.length W i).length : ℚ)) := by
  have hlen : i < (moving_average (qs.map Val.num) W).length := by
    rw [length_moving_average, List.length_map]; exact hi
  rw [List.getD_eq_getElem _ _ hlen]
  unfold moving_average
  simp only [List.getElem_map, List.getElem_range]
  rw [windowVals, List.length_map]
  have hmap : ((centerIdx qs.length W i).map fun j => (qs.map Val.num).getD j Val.nan)
      = (centerIdx qs.length W i).map fun j => Val.num (qs.getD j 0) := by
    apply List.map_congr_left
    intro j hj
    have hjn := mem_centerIdx_lt hj
    rw [List.getD_eq_getElem _ _ (by simpa using hjn), List.getD_eq_getElem _ _ hjn,
      List.getElem_map]
  rw [hmap]
  have hne : (centerIdx qs.length W i).length ≠ 0 := by
    have := @self_mem_centerIdx qs.length W i hW hi
    have hpos := List.length_pos.2 (List.ne_nil_of_mem this)
    omega
  rw [vmean, nonNan_map_num]
  simp only [List.length_map]
  rw [if_neg hne, vsum_map_num, Val.div]
  rw [if_neg (by exact_mod_cast hne)]

/-! ### Index equations for derivative columns -/

lemma derivCol_getD_zero (X dt : List Val) :
    (List.zipWith Val.div (diff X) dt).getD 0 Val.nan = Val.nan := by
  by_cases h : 0 < (List.zipWith Val.div (diff X) dt).length
  · rw [List.getD_eq_getElem _ _ h, List.getElem_zipWith,
      getElem_diff X 0 (by rw [List.length_zipWith] at h; omega)]
    simp [Val.div_nan_left]
  · rw [List.getD_eq_default _ _ (by omega)]

lemma derivCol_getD (X dt : List Val) (hlen : X.length = dt.length) {i : ℕ}
    (hi : i < X.length) (h0 : i ≠ 0) :
    (List.zipWith Val.div (diff X) dt).getD i Val.nan
    = Val.div (Val.sub (X.getD i Val.nan) (X.getD (i - 1) Val.nan))
        (dt.getD i Val.nan) := by
  have hz : i < (List.zipWith Val.div (diff X) dt).length := by
    rw [List.length_zipWith, length_diff, ← hlen]; omega
  rw [List.getD_eq_getElem _ _ hz, List.getElem_zipWith,
    getElem_diff X i (by rw [length_diff]; exact hi)]
  rw [if_neg h0, List.getD_eq_getElem dt _ (by omega : i < dt.length)]

lemma derivCol_getD_one (X dt : List Val) (hX0 : X.getD 0 Val.nan = Val.nan) :
    (List.zipWith Val.div (diff X) dt).getD 1 Val.nan = Val.nan := by
  by_cases h : 1 < (List.zipWith Val.div (diff X) dt).length
  · have hX : 1 < X.length := by
      rw [List.length_zipWith, length_diff] at h; omega
    rw [List.getD_eq_getElem _ _ h, List.getElem_zipWith,
      getElem_diff X 1 (by rw [length_diff]; exact hX)]
    rw [if_neg (by omega : (1 : ℕ) ≠ 0)]
    rw [show (1 : ℕ) - 1 = 0 from rfl, hX0, Val.sub_nan_right, Val.div_nan_left]
  · rw [List.getD_eq_default _ _ (by omega)]

/-! ### Column lengths of the processed frame -/

lemma length_dtCol (rows : List RawRow) : (dtCol rows).length = rows.length := by
  simp [dtCol, length_diff]

lemma length_timeDelta_zip (rows : List RawRow) :
    (rows.zip (dtCol rows)).length = rows.length := by
  rw [List.length_zip, length_dtCol, min_self]

lemma analyzePre_length_t (rows : List RawRow) (W : ℕ) :
    (analyzePre rows W).t.length = (timeDelta rows).length := by
  rw [analyzePre_t, List.length_map]

lemma analyzePre_length_distance (rows : List RawRow) (W : ℕ) :
    (analyzePre rows W).distance.length = (timeDelta rows).length := by
  rw [analyzePre_distance, List.length_map]

lemma analyzePre_length_dt (rows : List RawRow) (W : ℕ) :
    (analyzePre rows W).dt.length = (timeDelta rows).length := by
  rw [analyzePre_dt, List.length_map]

lemma analyzePre_length_velocity_raw (rows : List RawRow) (W : ℕ) :
    (analyzePre rows W).velocity_raw.length = (timeDelta rows).length := by
  rw [analyzePre_velocity_raw, List.length_zipWith, length_diff,
    analyzePre_length_distance, analyzePre_length_dt, min_self]

lemma analyzePre_length_acceleration_raw (rows : List RawRow) (W : ℕ) :
    (analyzePre rows W).acceleration_raw.length = (timeDelta rows).length := by
  rw [analyzePre_acceleration_raw, List.length_zipWith, length_diff,
    analyzePre_length_velocity_raw, analyzePre_length_dt, min_self]

lemma analyzePre_length_distance_f (rows : List RawRow) (W : ℕ) :
    (analyzePre rows W).distance_f.length = (timeDelta rows).length := by
  rw [analyzePre_distance_f, length_moving_average, analyzePre_length_distance]

lemma analyzePre_length_velocity_f (rows : List RawRow) (W : ℕ) :
    (analyzePre rows W).velocity_f.length = (timeDelta rows).length := by
  rw [analyzePre_velocity_f, List.length_zipWith, length_diff,
    analyzePre_length_distance_f, analyzePre_length_dt, min_self]

/-! ### Relating retained rows to the original input -/

lemma getD_drop {α : Type} (L : List α) (n i : ℕ) (d : α) :
    (L.drop n).getD i d = L.getD (n + i) d := by
  by_cases h : i < (L.drop n).length
  · rw [List.getD_eq_getElem _ _ h, List.getElem_drop,
      List.getD_eq_getElem _ _ (by rw [List.length_drop] at h; omega)]
  · rw [List.length_drop] at h
    rw [List.getD_eq_default _ _ (by rw [List.length_drop]; omega),
      List.getD_eq_default _ _ (by omega)]

lemma getD_zip_of_lt {α β : Type} {l₁ : List α} {l₂ : List β} {i : ℕ}
    (h1 : i < l₁.length) (h2 : i < l₂.length) (d : α × β) :
    (l₁.zip l₂).getD i d = (l₁.getD i d.1, l₂.getD i d.2) := by
  have hz : i < (l₁.zip l₂).length := by
    rw [List.length_zip]; exact lt_min h1 h2
  rw [List.getD_eq_getElem _ _ hz, List.getElem_zip,
    List.getD_eq_getElem _ _ h1, List.getD_eq_getElem _ _ h2]

/-- The all-NaN default used to read a row list positionally. -/
def dfltRow : RawRow := ⟨Val.nan, Val.nan⟩

lemma getD_map_snd (l : List (RawRow × Val)) (i : ℕ) :
    (l.map fun p => p.2).getD i Val.nan = (l.getD i (dfltRow, Val.nan)).2 := by
  by_cases h : i < l.length
  · rw [List.getD_eq_getElem _ _ (by simpa using h), List.getElem_map,
      List.getD_eq_getElem _ _ h]
  · rw [List.getD_eq_default _ _ (by simpa using Nat.le_of_not_lt h),
      List.getD_eq_default _ _ (Nat.le_of_not_lt h)]

lemma getD_map_fst_t (l : List (RawRow × Val)) (i : ℕ) :
    (l.map fun p => p.1.t).getD i Val.nan = (l.getD i (dfltRow, Val.nan)).1.t := by
  by_cases h : i < l.length
  · rw [List.getD_eq_getElem _ _ (by simpa using h), List.getElem_map,
      List.getD_eq_getElem _ _ h]
  · rw [List.getD_eq_default _ _ (by simpa using Nat.le_of_not_lt h),
      List.getD_eq_default _ _ (Nat.le_of_not_lt h)]
    rfl

lemma getD_map_t (rows : List RawRow) (i : ℕ) :
    (rows.map RawRow.t).getD i Val.nan = (rows.getD i dfltRow).t := by
  by_cases h : i < rows.length
  · rw [List.getD_eq_getElem _ _ (by simpa using h), List.getElem_map,
      List.getD_eq_getElem _ _ h]
  · rw [List.getD_eq_default _ _ (by simpa using Nat.le_of_not_lt h),
      List.getD_eq_default _ _ (Nat.le_of_not_lt h)]
    rfl

lemma dtCol_getD_succ (rows : List RawRow) {j : ℕ} (hj : j < rows.length)
    (h0 : j ≠ 0) :
    (dtCol rows).getD j Val.nan =
      Val.sub ((rows.getD j dfltRow).t) ((rows.getD (j - 1) dfltRow).t) := by
  have hjd : j < (diff (rows.map RawRow.t)).length := by
    rw [length_diff, List.length_map]; exact hj
  rw [dtCol, List.getD_eq_getElem _ _ hjd, getElem_diff _ j hjd, if_neg h0,
    getD_map_t rows j, getD_map_t rows (j - 1)]

/-- When every input index from 1 on passes the dt filter, the Time-Delta
step drops exactly the first row (whose dt is NaN). -/
lemma timeDelta_eq_drop {rows : List RawRow}
    (h1 : ∀ j, j < rows.length → 1 ≤ j →
      Val.lt (Val.num eps) ((dtCol rows).getD j Val.nan) = true) :
    timeDelta rows = (rows.zip (dtCol rows)).drop 1 := by
  rcases hz : rows.zip (dtCol rows) with _ | ⟨z, zs⟩
  · rw [timeDelta, hz]; rfl
  · rw [timeDelta, hz, List.drop_one]
    have hzlen : (z :: zs).length = rows.length := by
      rw [← hz]; exact length_timeDelta_zip rows
    have hrows : 0 < rows.length := by
      rw [← hzlen]; simp
    have hz2 : z.2 = Val.nan := by
      have h0 : (0 : ℕ) < (rows.zip (dtCol rows)).length := by rw [hz]; simp
      have e0 : (rows.zip (dtCol rows)).getD 0 (dfltRow, Val.nan) = z := by
        rw [hz]; rfl
      rw [getD_zip_of_lt hrows (by rw [length_dtCol]; exact hrows)] at e0
      have ed : (dtCol rows).getD 0 Val.nan = Val.nan := by
        have h0d : (0 : ℕ) < (diff (rows.map RawRow.t)).length := by
          rw [length_diff, List.length_map]; exact hrows
        rw [dtCol, List.getD_eq_getElem _ _ h0d, getElem_diff _ 0 h0d]
        simp
      rw [ed] at e0
      rw [← e0]
    rw [List.filter_cons_of_neg (by simp [hz2, Val.lt]), List.filter_eq_self.mpr]
    · rfl
    · intro y hy
      obtain ⟨j, hj, rfl⟩ := List.mem_iff_getElem.1 hy
      have hjr : j + 1 < rows.length := by
        rw [← hzlen]; simpa using Nat.succ_lt_succ hj
      have eZ : (rows.zip (dtCol rows)).getD (j + 1) (dfltRow, Val.nan) = zs[j] := by
        rw [hz, List.getD_eq_getElem _ _ (by simpa using Nat.succ_lt_succ hj),
          List.getElem_cons_succ]
      rw [getD_zip_of_lt hjr (by rw [length_dtCol]; exact hjr)] at eZ
      have := h1 (j + 1) hjr (by omega)
      rw [← eZ]
      exact this

/-! ### Positivity of the dt mean -/

lemma vsum_pos : ∀ l : List Val, (∀ v ∈ l, ∃ q, v = Val.num q ∧ eps < q) →
    l ≠ [] → ∃ s : ℚ, vsum l = Val.num s ∧ 0 < s := by
  intro l
  induction l with
  | nil => intro _ hne; exact absurd rfl hne
  | cons a l ih =>
    intro h _
    obtain ⟨q, hq, hq2⟩ := h a (List.mem_cons_self a l)
    subst hq
    have heps : (0 : ℚ) < eps := by norm_num [eps]
    by_cases hl : l = []
    · subst hl
      refine ⟨q, ?_, lt_trans heps hq2⟩
      show Val.add (Val.num q) (Val.num 0) = Val.num q
      rw [Val.add, add_zero]
    · obtain ⟨s, hs, hspos⟩ := ih (fun v hv => h v (List.mem_cons_of_mem _ hv)) hl
      refine ⟨q + s, ?_, add_pos (lt_trans heps hq2) hspos⟩
      show Val.add (Val.num q) (vsum l) = Val.num (q + s)
      rw [hs, Val.add]

/-! ### The claims -/

/-- Claim C1: in the processed frame of `analyze`, `velocity_raw[0]` is the
missing marker and for `i>0` we have
`velocity_raw[i] = (distance[i] - distance[i-1]) / dt[i]`; likewise
`acceleration_raw` is missing at indices 0 and 1 and for `i>1` equals
`(velocity_raw[i] - velocity_raw[i-1]) / dt[i]`.  Inputs range over the
specification's data model (finite real samples). -/
theorem raw_derivative_equations (rows : List RawRow) (W : ℕ)
    (hfin : allFinite rows = true) :
    ((analyze rows W).velocity_raw.getD 0 Val.nan = Val.nan)
    ∧ (∀ i, i < (analyze rows W).velocity_raw.length → 0 < i →
        (analyze rows W).velocity_raw.getD i Val.nan =
          Val.div (Val.sub ((analyze rows W).distance.getD i Val.nan)
              ((analyze rows W).distance.getD (i - 1) Val.nan))
            ((analyze rows W).dt.getD i Val.nan))
    ∧ ((analyze rows W).acceleration_raw.getD 0 Val.nan = Val.nan)
    ∧ ((analyze rows W).acceleration_raw.getD 1 Val.nan = Val.nan)
    ∧ (∀ i, i < (analyze rows W).acceleration_raw.length → 1 < i →
        (analyze rows W).acceleration_raw.getD i Val.nan =
          Val.div (Val.sub ((analyze rows W).velocity_raw.getD i Val.nan)
              ((analyze rows W).velocity_raw.getD (i - 1) Val.nan))
            ((analyze rows W).dt.getD i Val.nan)) := by
  rw [analyze_eq_analyzePre hfin]
  refine ⟨?_, ?_, ?_, ?_, ?_⟩
  · rw [analyzePre_velocity_raw]
    exact derivCol_getD_zero _ _
  · intro i hi h0
    rw [analyzePre_length_velocity_raw] at hi
    rw [analyzePre_velocity_raw]
    exact derivCol_getD _ _
      (by rw [analyzePre_length_distance, analyzePre_length_dt])
      (by rw [analyzePre_length_distance]; exact hi) (by omega)
  · rw [analyzePre_acceleration_raw]
    exact derivCol_getD_zero _ _
  · rw [analyzePre_acceleration_raw]
    refine derivCol_getD_one _ _ ?_
    rw [analyzePre_velocity_raw]
    exact derivCol_getD_zero _ _
  · intro i hi h1
    rw [analyzePre_length_acceleration_raw] at hi
    rw [analyzePre_acceleration_raw]
    exact derivCol_getD _ _
      (by rw [analyzePre_length_velocity_raw, analyzePre_length_dt])
      (by rw [analyzePre_length_velocity_raw]; exact hi) (by omega)

/-- Concrete input for the C1 witness. -/
def exC1 : List RawRow :=
  [⟨Val.num 0, Val.num 10⟩, ⟨Val.num (1 / 20), Val.num 11⟩,
   ⟨Val.num (1 / 10), Val.num 13⟩, ⟨Val.num (3 / 20), Val.num 16⟩]

/-- Witness for C1: the velocity equation instantiated at a concrete input
and index. -/
theorem raw_derivative_equations_witness :
    (analyze exC1 3).velocity_raw.getD 2 Val.nan =
      Val.div (Val.sub ((analyze exC1 3).distance.getD 2 Val.nan)
          ((analyze exC1 3).distance.getD 1 Val.nan))
        ((analyze exC1 3).dt.getD 2 Val.nan) :=
  (raw_derivative_equations exC1 3 (by with_unfolding_all decide)).2.1 2 (by with_unfolding_all decide) (by with_unfolding_all decide)

/-- Claim C2: every row retained by the Time-Delta step has `dt > 1e-4`,
and no row whose dt compares `<= 1e-4` appears among the retained rows. -/
theorem timeDelta_filter_spec (rows : List RawRow) :
    (∀ p ∈ timeDelta rows, Val.lt (Val.num eps) p.2 = true)
    ∧ ∀ r : RawRow, ∀ d : Val, Val.le d (Val.num eps) = true →
        (r, d) ∉ timeDelta rows := by
  constructor
  · intro p hp
    exact (mem_timeDelta.1 hp).2
  · intro r d hle hmem
    have hlt := (mem_timeDelta.1 hmem).2
    cases d with
    | nan => simp [Val.le] at hle
    | pinf => simp [Val.le] at hle
    | ninf => simp [Val.lt] at hlt
    | num q =>
      rw [Val.lt_num_num, decide_eq_true_eq] at hlt
      simp only [Val.le, decide_eq_true_eq] at hle
      exact absurd hlt (not_lt.2 hle)

/-- Concrete input for the C2 witness. -/
def exC2 : List RawRow := [⟨Val.num 0, Val.num 5⟩, ⟨Val.num (1 / 10), Val.num 5⟩]

/-- Witness for C2 at a concrete input: the retained pair passes the
threshold, and a pair below the threshold is not retained. -/
theorem timeDelta_filter_spec_witness :
    Val.lt (Val.num eps)
      (((⟨Val.num (1 / 10), Val.num 5⟩ : RawRow), Val.num (1 / 10)).2) = true
    ∧ ((⟨Val.num (1 / 20), Val.num 5⟩ : RawRow), Val.num (1 / 20000)) ∉
        timeDelta exC2 := by
  constructor
  · exact (timeDelta_filter_spec exC2).1 _ (by with_unfolding_all decide)
  · exact (timeDelta_filter_spec exC2).2 _ _ (by with_unfolding_all decide)

/-- Concrete static-object input of claim C4. -/
def exC4 : List RawRow :=
  [⟨Val.num 0, Val.num 10⟩, ⟨Val.num (1 / 20), Val.num 10⟩,
   ⟨Val.num (1 / 10), Val.num 10⟩, ⟨Val.num (3 / 20), Val.num 10⟩]

/-- Counterexample to claim C4 as stated: the first input row is dropped by
the dt filter (its dt is NaN), so the processed frame has three rows, not
four with a missing leading dt. -/
theorem static_example_counterexample :
    (analyze exC4 3).distance_f ≠
      [Val.num 10, Val.num 10, Val.num 10, Val.num 10]
    ∧ (analyze exC4 3).dt ≠
      [Val.nan, Val.num (1 / 20), Val.num (1 / 20), Val.num (1 / 20)] := by
  with_unfolding_all decide

/-- Claim C4 (amended): the exact frame `analyze` produces on the static
input — three retained rows, constant dt `0.05`, zero derivatives after
their first defined index, and a constant filtered distance. -/
theorem static_example_amended :
    analyze exC4 3 =
      { t := [Val.num (1 / 20), Val.num (1 / 10), Val.num (3 / 20)],
        distance := [Val.num 10, Val.num 10, Val.num 10],
        dt := [Val.num (1 / 20), Val.num (1 / 20), Val.num (1 / 20)],
        velocity_raw := [Val.nan, Val.num 0, Val.num 0],
        acceleration_raw := [Val.nan, Val.nan, Val.num 0],
        distance_f := [Val.num 10, Val.num 10, Val.num 10],
        velocity_f := [Val.nan, Val.num 0, Val.num 0],
        acceleration_f := [Val.nan, Val.nan, Val.num 0] } := by
  with_unfolding_all decide

/-- Claim C6: with window 1 the centered rolling mean is the identity on
every column. -/
theorem moving_average_one_identity (xs : List Val) : moving_average xs 1 = xs := by
  apply List.ext_getElem
  · rw [length_moving_average]
  · intro i h1 h2
    rw [length_moving_average] at h1
    unfold moving_average
    simp only [List.getElem_map, List.getElem_range]
    rw [windowVals, centerIdx_one h2, List.map_cons, List.map_nil,
      List.getD_eq_getElem _ _ h2, vmean_single]

/-- Claim C8: after the Sanitizer step, no cell of any derived column of the
processed frame is an infinity, for every input and window. -/
theorem sanitizer_no_infinities (rows : List RawRow) (W : ℕ) (i : ℕ) :
    ((analyze rows W).dt.getD i Val.nan ≠ Val.pinf
      ∧ (analyze rows W).dt.getD i Val.nan ≠ Val.ninf)
    ∧ ((analyze rows W).velocity_raw.getD i Val.nan ≠ Val.pinf
      ∧ (analyze rows W).velocity_raw.getD i Val.nan ≠ Val.ninf)
    ∧ ((analyze rows W).acceleration_raw.getD i Val.nan ≠ Val.pinf
      ∧ (analyze rows W).acceleration_raw.getD i Val.nan ≠ Val.ninf)
    ∧ ((analyze rows W).distance_f.getD i Val.nan ≠ Val.pinf
      ∧ (analyze rows W).distance_f.getD i Val.nan ≠ Val.ninf)
    ∧ ((analyze rows W).velocity_f.getD i Val.nan ≠ Val.pinf
      ∧ (analyze rows W).velocity_f.getD i Val.nan ≠ Val.ninf)
    ∧ ((analyze rows W).acceleration_f.getD i Val.nan ≠ Val.pinf
      ∧ (analyze rows W).acceleration_f.getD i Val.nan ≠ Val.ninf) := by
  have key : ∀ l : List Val, (replaceInf l).getD i Val.nan ≠ Val.pinf ∧
      (replaceInf l).getD i Val.nan ≠ Val.ninf := by
    intro l
    rw [getD_replaceInf]
    exact replaceInfV_ne_inf _
  exact ⟨key _, key _, key _, key _, key _, key _⟩

/-- Claim C10: the two smoothing code paths diverge — on the same input and
window, the centered edge-shrinking rolling mean of `analyzer.py` and the
trailing back-filled rolling mean of `distance_log.py` give different
filtered values at index 0. -/
theorem smoothing_paths_diverge :
    (moving_average [Val.num 0, Val.num 10] 3).getD 0 Val.nan ≠
      (bfill (trailing_mean [Val.num 0, Val.num 10] 3)).getD 0 Val.nan := by
  with_unfolding_all decide

/-- Input of the C3 counterexample: the third row has a timestamp that goes
backwards, so its dt is negative and the row is dropped while its
predecessor and successor are retained. -/
def exC3 : List RawRow :=
  [⟨Val.num 0, Val.num 1⟩, ⟨Val.num (1 / 10), Val.num 2⟩,
   ⟨Val.num (1 / 20), Val.num 3⟩, ⟨Val.num (3 / 10), Val.num 4⟩]

/-- Counterexample to claim C3 as stated: `dt` is computed before filtering
and never recomputed, so after an interior row is dropped the stored
`dt[1] = 0.25` differs from the retained-row difference
`t[1] - t[0] = 0.2`. -/
theorem dt_not_time_difference_counterexample :
    1 < (analyze exC3 5).dt.length
    ∧ (analyze exC3 5).dt.getD 1 Val.nan ≠
        Val.sub ((analyze exC3 5).t.getD 1 Val.nan)
          ((analyze exC3 5).t.getD 0 Val.nan) := by
  with_unfolding_all decide

/-- Claim C3 (amended): the stored dt of each retained row is its timestamp
difference in the original input; it equals `t[i] - t[i-1]` over the
retained rows whenever no interior row is dropped, i.e. when every input
index from 1 on passes the dt filter (and inputs are finite). -/
theorem dt_equals_time_difference_amended (rows : List RawRow) (W : ℕ)
    (hfin : allFinite rows = true)
    (hkeep : ∀ j, j < rows.length → 1 ≤ j →
      Val.lt (Val.num eps) ((dtCol rows).getD j Val.nan) = true) :
    ∀ i, i < (analyze rows W).dt.length → 0 < i →
      (analyze rows W).dt.getD i Val.nan =
        Val.sub ((analyze rows W).t.getD i Val.nan)
          ((analyze rows W).t.getD (i - 1) Val.nan) := by
  intro i hlen hi
  rw [analyze_eq_analyzePre hfin] at hlen ⊢
  rw [analyzePre_length_dt] at hlen
  have hdrop := timeDelta_eq_drop hkeep
  have hklen : (timeDelta rows).length = rows.length - 1 := by
    rw [hdrop, List.length_drop, length_timeDelta_zip]
  have hia : 1 + i < rows.length := by omega
  have hdtl : 1 + i < (dtCol rows).length := by rw [length_dtCol]; omega
  have hLHS : (analyzePre rows W).dt.getD i Val.nan
      = (dtCol rows).getD (1 + i) Val.nan := by
    rw [analyzePre_dt, getD_map_snd, hdrop, getD_drop,
      getD_zip_of_lt hia hdtl (dfltRow, Val.nan)]
  have hT1 : (analyzePre rows W).t.getD i Val.nan = (rows.getD (1 + i) dfltRow).t := by
    rw [analyzePre_t, getD_map_fst_t, hdrop, getD_drop,
      getD_zip_of_lt hia hdtl (dfltRow, Val.nan)]
  have hT0 : (analyzePre rows W).t.getD (i - 1) Val.nan
      = (rows.getD i dfltRow).t := by
    rw [analyzePre_t, getD_map_fst_t, hdrop, getD_drop,
      getD_zip_of_lt (show 1 + (i - 1) < rows.length by omega)
        (show 1 + (i - 1) < (dtCol rows).length by rw [length_dtCol]; omega)
        (dfltRow, Val.nan)]
    rw [show 1 + (i - 1) = i from by omega]
  rw [hLHS, hT1, hT0, dtCol_getD_succ rows hia (by omega),
    show 1 + i - 1 = i from by omega]

/-- Input for the C3 amended witness: strictly increasing timestamps, so
only the first row is dropped. -/
def exC3b : List RawRow :=
  [⟨Val.num 0, Val.num 4⟩, ⟨Val.num (1 / 10), Val.num 5⟩,
   ⟨Val.num (1 / 5), Val.num 7⟩]

/-- Witness for the amended C3 at a concrete input and index. -/
theorem dt_equals_time_difference_amended_witness :
    (analyze exC3b 5).dt.getD 1 Val.nan =
      Val.sub ((analyze exC3b 5).t.getD 1 Val.nan)
        ((analyze exC3b 5).t.getD 0 Val.nan) :=
  dt_equals_time_difference_amended exC3b 5 (by with_unfolding_all decide)
    (by with_unfolding_all decide) 1 (by with_unfolding_all decide)
    (by with_unfolding_all decide)

/-- The centered window of the specification's words (§4.5): for odd window
`2k+1`, index `i` averages over `max(0, i-k) .. min(n-1, i+k)`; written as a
filter of the column's index range, with natural subtraction performing the
`max(0, ·)` clip. -/
def specCenterWindow (n k i : ℕ) : List ℕ :=
  (List.range n).filter fun j => decide (i - k ≤ j) && decide (j ≤ i + k)

lemma centerIdx_odd (n k i : ℕ) : centerIdx n (2 * k + 1) i = specCenterWindow n k i := by
  unfold centerIdx specCenterWindow
  have e1 : i + 1 + (2 * k + 1 - 1) / 2 - (2 * k + 1) = i - k := by omega
  have e2 : i + (2 * k + 1 - 1) / 2 = i + k := by omega
  simp only [e1, e2]

/-- Claim C5: on a finite distance column and positive window,
`moving_average` has no missing value at any index, and for odd `W = 2k+1`
the value at `i` is the arithmetic mean over the centered, edge-shrunk
window `max(0, i-k) .. min(n-1, i+k)`. -/
theorem moving_average_no_gaps_and_centered (qs : List ℚ) (W : ℕ) (hW : 1 ≤ W) :
    (∀ i, i < qs.length →
      (moving_average (qs.map Val.num) W).getD i Val.nan ≠ Val.nan)
    ∧ ∀ k, W = 2 * k + 1 → ∀ i, i < qs.length →
        (moving_average (qs.map Val.num) W).getD i Val.nan
        = Val.num (((specCenterWindow qs.length k i).map fun j => qs.getD j 0).sum
            / ((specCenterWindow qs.length k i).length : ℚ)) := by
  constructor
  · intro i hi
    rw [moving_average_finite_getD qs W i hi hW]
    intro h
    exact Val.noConfusion h
  · intro k hk i hi
    subst hk
    rw [moving_average_finite_getD qs _ i hi hW, centerIdx_odd]

/-- Witness for C5: no missing value at a concrete input and index. -/
theorem moving_average_no_gaps_witness :
    (moving_average (([1, 2, 4] : List ℚ).map Val.num) 3).getD 1 Val.nan ≠ Val.nan :=
  (moving_average_no_gaps_and_centered [1, 2, 4] 3 (by decide)).1 1 (by decide)

/-- Concrete one-retained-row input of claim C7. -/
def exC7 : List RawRow := [⟨Val.num 0, Val.num 5⟩, ⟨Val.num (1 / 10), Val.num 6⟩]

/-- Counterexample to claim C7 as stated: a processed series with a single
sample — fewer than two — still yields the defined rate `10.0`, not the
undefined marker, because its one dt passed the filter and so has a
positive mean. -/
theorem sample_rate_counterexample :
    (analyze exC7 5).dt.length = 1
    ∧ safe_sample_rate ((analyze exC7 5).dt) = Val.num 10
    ∧ (Val.num 10 : Val) ≠ Val.nan := by
  with_unfolding_all decide

/-- Claim C7 (amended): on the specification's data model `safe_sample_rate`
never crashes: an empty processed series yields the undefined marker, and a
nonempty one — a single sample included — has a positive mean dt and yields
`round(1 / mean(dt), 1)`. -/
theorem sample_rate_amended (rows : List RawRow) (W : ℕ)
    (hfin : allFinite rows = true) :
    ((analyze rows W).dt = [] → safe_sample_rate ((analyze rows W).dt) = Val.nan)
    ∧ ((analyze rows W).dt ≠ [] → ∃ q : ℚ, 0 < q
        ∧ vmean ((analyze rows W).dt) = Val.num q
        ∧ safe_sample_rate ((analyze rows W).dt) = Val.num (pyRound1 (1 / q))) := by
  rw [analyze_eq_analyzePre hfin]
  constructor
  · intro h
    rw [h]
    rfl
  · intro hne
    have hall := @dt_col_pos rows W hfin
    obtain ⟨s, hs, hspos⟩ := vsum_pos _ hall hne
    have hnn : nonNan ((analyzePre rows W).dt) = (analyzePre rows W).dt := by
      apply nonNan_all_num
      intro v hv
      obtain ⟨q, hq, _⟩ := hall v hv
      rw [hq]
      rfl
    have hlen0 : (analyzePre rows W).dt.length ≠ 0 := by
      have := List.length_pos.2 hne
      omega
    have hKpos : (0 : ℚ) < ((analyzePre rows W).dt.length : ℚ) := by
      exact_mod_cast Nat.pos_of_ne_zero hlen0
    have hmean : vmean ((analyzePre rows W).dt)
        = Val.num (s / ((analyzePre rows W).dt.length : ℚ)) := by
      rw [vmean, hnn, if_neg hlen0, hs, Val.div, if_neg (ne_of_gt hKpos)]
    have hqpos : (0 : ℚ) < s / ((analyzePre rows W).dt.length : ℚ) :=
      div_pos hspos hKpos
    refine ⟨s / ((analyzePre rows W).dt.length : ℚ), hqpos, hmean, ?_⟩
    show (if Val.lt (Val.num 0) (vmean ((analyzePre rows W).dt)) = true then
        vround1 (Val.div (Val.num 1) (vmean ((analyzePre rows W).dt)))
      else Val.nan) = _
    have hcond : Val.lt (Val.num 0)
        (Val.num (s / ((analyzePre rows W).dt.length : ℚ))) = true := by
      rw [Val.lt_num_num]
      exact decide_eq_true hqpos
    rw [hmean, if_pos hcond, Val.div, if_neg (ne_of_gt hqpos), vround1]

/-- Concrete input for the C7 amended witness. -/
def exC7b : List RawRow :=
  [⟨Val.num 0, Val.num 5⟩, ⟨Val.num (1 / 10), Val.num 6⟩,
   ⟨Val.num (1 / 5), Val.num 8⟩]

/-- Witness for the amended C7: a nonempty processed series has a positive
mean dt and a defined rounded rate. -/
theorem sample_rate_amended_witness :
    ∃ q : ℚ, 0 < q ∧ vmean ((analyze exC7b 5).dt) = Val.num q
      ∧ safe_sample_rate ((analyze exC7b 5).dt) = Val.num (pyRound1 (1 / q)) :=
  (sample_rate_amended exC7b 5 (by with_unfolding_all decide)).2
    (by with_unfolding_all decide)

/-- Input with an infinite distance cell, as pandas parses from an `inf`
entry in the CSV. -/
def exC9 : List RawRow := [⟨Val.num 0, Val.num 5⟩, ⟨Val.num (1 / 10), Val.pinf⟩]

/-- Counterexample to claim C9 as stated: `df.replace([inf, -inf], nan)`
acts on every column of the frame, so an infinite `distance` cell is
rewritten to the missing marker by the Sanitizer step — `distance` is not
left unchanged. -/
theorem sanitizer_rewrites_distance_counterexample :
    (analyze exC9 5).distance ≠ (analyzePre exC9 5).distance := by
  with_unfolding_all decide

/-- Claim C9 (amended): the Sanitizer applies the infinity replacement to
every column uniformly; `t` and `distance` are unchanged on every input of
the specification's data model, where all cells are finite. -/
theorem sanitizer_preserves_t_distance_of_finite (rows : List RawRow) (W : ℕ)
    (hfin : allFinite rows = true) :
    (analyze rows W).t = (analyzePre rows W).t
    ∧ (analyze rows W).distance = (analyzePre rows W).distance := by
  rw [analyze_eq_analyzePre hfin]
  exact ⟨rfl, rfl⟩

/-- Concrete input for the C9 amended witness. -/
def exC9b : List RawRow := [⟨Val.num 0, Val.num 5⟩, ⟨Val.num (1 / 10), Val.num 7⟩]

/-- Witness for the amended C9 at a concrete finite input. -/
theorem sanitizer_preserves_t_distance_witness :
    (analyze exC9b 4).t = (analyzePre exC9b 4).t
    ∧ (analyze exC9b 4).distance = (analyzePre exC9b 4).distance :=
  sanitizer_preserves_t_distance_of_finite exC9b 4 (by with_unfolding_all decide)
